import Mathlib

/-
Shallow embedding of src/DeepFilterNet/df/evaluation_utils.py.

Python dicts preserve insertion order, so every dict is modelled as an
association list (List (String × _)) with unique keys; dictSet is the
dict item assignment (replace in place when the key exists, append
otherwise) and delKey is the del statement.  Metric values are modelled
as exact rationals; numpy scalars and vectors become MetricValue.
Exceptions are modelled with Except or an explicit Option String field
holding the propagated error.
-/

set_option autoImplicit false

namespace DFEval

/-- An audio signal: a one dimensional sequence of samples. -/
abbrev Sig := List ℚ

/-- Python dict item assignment d[k] = v: replace in place if the key
exists, otherwise append, preserving insertion order. -/
def dictSet {β : Type} (k : String) (v : β) : List (String × β) → List (String × β)
  | [] => [(k, v)]
  | (k₂, v₂) :: rest => if k = k₂ then (k, v) :: rest else (k₂, v₂) :: dictSet k v rest

/-- Python del d[k] for a key that is present. -/
def delKey {β : Type} (k : String) : List (String × β) → List (String × β)
  | [] => []
  | (k₂, v₂) :: rest => if k = k₂ then rest else (k₂, v₂) :: delKey k rest

/-- The name argument of Metric, a Union of str and List of str. -/
inductive MetricName where
  | single (s : String)
  | multi (l : List String)
deriving DecidableEq, Repr

/-- The list of declared metric names, as iterated by the dict
comprehensions in Metric init. -/
def MetricName.names : MetricName → List String
  | .single s => [s]
  | .multi l => l

/-- Return value of compute_metric: a float scalar or a numpy vector. -/
inductive MetricValue where
  | scalar (v : ℚ)
  | vector (vs : List ℚ)
deriving DecidableEq, Repr

/-- The np.asarray wrapping in add_values: a scalar becomes a one
element vector, a vector stays as is. -/
def MetricValue.asVector : MetricValue → List ℚ
  | .scalar v => [v]
  | .vector vs => vs

/-- One recorded Result Record: optional filename and value. -/
abbrev ResultRec := Option String × ℚ

/-- The value dict of a Metric: metric name to ordered list of records. -/
abbrev ValueDict := List (String × List ResultRec)

/-- The for k, v in zip(dict.keys(), values) append loop of
add_values: zip truncates to the shorter of the two sequences, and each
paired key has (fn, v) appended to its record list. -/
def appendZip (fn : Option String) : ValueDict → List ℚ → ValueDict
  | d, [] => d
  | [], _ => []
  | (k, l) :: rest, v :: vs => (k, l ++ [(fn, v)]) :: appendZip fn rest vs

/-- State of the base Metric class: declared name, target sample rate,
optional resampler (source and target rate), and the two record dicts. -/
structure Metric where
  name : MetricName
  sr : Option ℕ
  resampler : Option (ℕ × ℕ)
  enh_values : ValueDict
  noisy_values : ValueDict
deriving DecidableEq, Repr

/-- Metric init: stores the name, sets sr to the target rate, builds a
resampler only when both rates are given and differ, and creates one
empty record list per declared name (dict comprehension semantics). -/
def Metric.init (name : MetricName) (source_sr target_sr : Option ℕ) : Metric :=
  { name := name
    sr := target_sr
    resampler :=
      match source_sr, target_sr with
      | some s, some t => if s ≠ t then some (s, t) else none
      | _, _ => none
    enh_values := name.names.foldl (fun d n => dictSet n [] d) []
    noisy_values := name.names.foldl (fun d n => dictSet n [] d) [] }

/-- Metric add_values_enh: wrap a scalar into a one element vector and
zip the values positionally with the declared names, appending. -/
def Metric.add_values_enh (m : Metric) (values : MetricValue) (fn : Option String) : Metric :=
  { m with enh_values := appendZip fn m.enh_values values.asVector }

/-- Metric add_values_noisy, the noisy baseline counterpart. -/
def Metric.add_values_noisy (m : Metric) (values : MetricValue) (fn : Option String) : Metric :=
  { m with noisy_values := appendZip fn m.noisy_values values.asVector }

/-- Metric maybe_resample: apply the resampler when configured. The
resampling primitive itself is an external collaborator, passed in as
the function rs. -/
def maybe_resample (rs : ℕ × ℕ → Sig → Sig) (m : Metric) (x : Sig) : Sig :=
  match m.resampler with
  | none => x
  | some p => rs p x

/-- Synchronous Metric add: resample, compute the formula for the
enhanced signal and append; when a noisy signal is given, also compute
and append the baseline. The second component is the exception
propagated out of compute_metric, if any. -/
def Metric.add (rs : ℕ × ℕ → Sig → Sig) (compute : Sig → Sig → Except String MetricValue)
    (m : Metric) (clean enhanced : Sig) (noisy : Option Sig) (fn : Option String) :
    Metric × Option String :=
  let cleanR := maybe_resample rs m clean
  let enhancedR := maybe_resample rs m enhanced
  match compute cleanR enhancedR with
  | .error e => (m, some e)
  | .ok values_enh =>
    let m := m.add_values_enh values_enh fn
    match noisy with
    | none => (m, none)
    | some ny =>
      let nyR := maybe_resample rs m ny
      match compute cleanR nyR with
      | .error e => (m, some e)
      | .ok values_noisy => (m.add_values_noisy values_noisy fn, none)

/-- np.mean of a list of values; none models the NaN produced on an
empty list. -/
def npMean (l : List ℚ) : Option ℚ :=
  if l.isEmpty then none else some (l.sum / l.length)

/-- The loop body of Metric mean: for each declared name insert the
noisy mean when noisy records exist, then the enhanced mean. -/
def meanLoop (noisyD : ValueDict) : ValueDict → List (String × Option ℚ) → List (String × Option ℚ)
  | [], out => out
  | (n, l) :: rest, out =>
    let out :=
      match List.lookup n noisyD with
      | some nl => if 0 < nl.length then dictSet ("Noisy    " ++ n) (npMean (nl.map Prod.snd)) out else out
      | none => out
    meanLoop noisyD rest (dictSet ("Enhanced " ++ n) (npMean (l.map Prod.snd)) out)

/-- Metric mean: labels Enhanced plus name (and Noisy plus name when
noisy records exist) mapped to the arithmetic mean of the records. -/
def Metric.mean (m : Metric) : List (String × Option ℚ) :=
  meanLoop m.noisy_values m.enh_values []

/-- One dict assignment flat[fn or ""][n] = v of flattend. Both flat
dicts are plain dicts, so the inner lookup raises KeyError whenever the
filename key is not yet present. -/
def flatUpdate (n : String) : List ResultRec → List (String × List (String × ℚ)) →
    Except String (List (String × List (String × ℚ)))
  | [], flat => .ok flat
  | (fn, v) :: rest, flat =>
    let key := fn.getD ""
    match List.lookup key flat with
    | none => .error ("KeyError: " ++ key)
    | some inner => flatUpdate n rest (dictSet key (dictSet n v inner) flat)

/-- The loop of Metric flattend over the declared names, threading the
noisy and enhanced flat dicts. -/
def flattendLoop (noisyD : ValueDict) :
    ValueDict → List (String × List (String × ℚ)) → List (String × List (String × ℚ)) →
    Except String (List (String × List (String × ℚ)) × List (String × List (String × ℚ)))
  | [], nf, ef => .ok (nf, ef)
  | (n, l) :: rest, nf, ef =>
    let step :=
      match List.lookup n noisyD with
      | some nl => if 0 < nl.length then flatUpdate n nl nf else .ok nf
      | none => .ok nf
    match step with
    | .error e => .error e
    | .ok nf₂ =>
      match flatUpdate n l ef with
      | .error e => .error e
      | .ok ef₂ => flattendLoop noisyD rest nf₂ ef₂

/-- Metric flattend: pivot the per name record lists into a per file
view and return the noisy or the enhanced one. -/
def Metric.flattend (m : Metric) (noisy : Bool) :
    Except String (List (String × List (String × ℚ))) :=
  match flattendLoop m.noisy_values m.enh_values [] [] with
  | .error e => .error e
  | .ok (nf, ef) => .ok (if noisy then nf else ef)

deriving instance DecidableEq for Except

/-- A queued asynchronous handle in worker_results: the filename bound
by the callback closure and the eventual outcome of the pool task. -/
structure Pending where
  fn : Option String
  result : Except String MetricValue
deriving DecidableEq, Repr

/-- State of MPMetric: the base Metric fields plus the pool handle
(an opaque identifier) and the deque of pending baseline handles. -/
structure MPMetric extends Metric where
  pool : ℕ
  worker_results : List Pending
deriving DecidableEq, Repr

/-- MPMetric init: base init plus the pool and an empty deque. -/
def MPMetric.init (name : MetricName) (pool : ℕ) (source_sr target_sr : Option ℕ) : MPMetric :=
  { toMetric := Metric.init name source_sr target_sr
    pool := pool
    worker_results := [] }

/-- Observable events of the pooled execution: pool submissions, the
blocking get calls, the callback appends, the error callback log lines,
pool shutdown and the final aggregation. -/
inductive Ev where
  | submitEnh (fn : Option String)
  | appendEnh (fn : Option String)
  | getEnh (fn : Option String)
  | submitNoisy (fn : Option String)
  | appendNoisy (fn : Option String)
  | getNoisy (fn : Option String)
  | logError (msg : String)
  | poolClose (pool : ℕ)
  | poolJoin (pool : ℕ)
  | aggregate
deriving DecidableEq, Repr

/-- Result of one MPMetric add call: the mutated state, the trace of
events in execution order, and the exception re-raised by the blocking
get, if any. -/
structure AddOut where
  state : MPMetric
  events : List Ev
  raised : Option String
deriving DecidableEq, Repr

/-- MPMetric add: submit the enhanced computation to the pool and block
on its handle with get. On success the callback appends the record
before get returns; on failure the error callback logs and get
re-raises. Then the baseline computation is submitted and only its
handle is queued on worker_results, without blocking. -/
def MPMetric.add (rs : ℕ × ℕ → Sig → Sig) (compute : Sig → Sig → Except String MetricValue)
    (m : MPMetric) (clean enhanced : Sig) (noisy : Option Sig) (fn : Option String) : AddOut :=
  let cleanR := maybe_resample rs m.toMetric clean
  let enhancedR := maybe_resample rs m.toMetric enhanced
  match compute cleanR enhancedR with
  | .error e =>
    { state := m, events := [.submitEnh fn, .logError e], raised := some e }
  | .ok v =>
    let m₂ := { m with toMetric := m.toMetric.add_values_enh v fn }
    let evs := [.submitEnh fn, .appendEnh fn, .getEnh fn]
    match noisy with
    | none => { state := m₂, events := evs, raised := none }
    | some ny =>
      let nyR := maybe_resample rs m₂.toMetric ny
      { state := { m₂ with worker_results := m₂.worker_results ++ [⟨fn, compute cleanR nyR⟩] }
        events := evs ++ [.submitNoisy fn]
        raised := none }

/-- NoisyMetric add: same pooled protocol as MPMetric add but with a
single argument formula, the enhanced computation blocked on and the
noisy baseline handle queued. -/
def NoisyMetric.add (rs : ℕ × ℕ → Sig → Sig) (compute : Sig → Except String MetricValue)
    (m : MPMetric) (enhanced : Sig) (noisy : Option Sig) (fn : Option String) : AddOut :=
  let enhancedR := maybe_resample rs m.toMetric enhanced
  match compute enhancedR with
  | .error e =>
    { state := m, events := [.submitEnh fn, .logError e], raised := some e }
  | .ok v =>
    let m₂ := { m with toMetric := m.toMetric.add_values_enh v fn }
    let evs := [.submitEnh fn, .appendEnh fn, .getEnh fn]
    match noisy with
    | none => { state := m₂, events := evs, raised := none }
    | some ny =>
      let nyR := maybe_resample rs m₂.toMetric ny
      { state := { m₂ with worker_results := m₂.worker_results ++ [⟨fn, compute nyR⟩] }
        events := evs ++ [.submitNoisy fn]
        raised := none }

/-- The drain loop of MPMetric mean: popleft each pending handle and
block on it with get. A successful handle has had its callback append
the baseline record; a failed handle has been logged by the error
callback and get re-raises, leaving the rest of the deque in place. -/
def drainLoop (m : Metric) : List Pending →
    Metric × List Pending × List Ev × Option String
  | [] => (m, [], [], none)
  | h :: rest =>
    match h.result with
    | .ok v =>
      let m₂ := m.add_values_noisy v h.fn
      let (m₃, rem, evs, err) := drainLoop m₂ rest
      (m₃, rem, .appendNoisy h.fn :: .getNoisy h.fn :: evs, err)
    | .error e => (m, rest, [.logError e], some e)

/-- Result of MPMetric mean: final state, event trace, re-raised
exception if any, and the aggregate mapping when it was computed. -/
structure MeanOut where
  state : MPMetric
  events : List Ev
  raised : Option String
  result : Option (List (String × Option ℚ))
deriving DecidableEq, Repr

/-- MPMetric mean: drain every queued baseline handle, then close and
join the pool, then delegate to the base aggregation. A failed handle
re-raises out of the drain loop and nothing is aggregated. -/
def MPMetric.mean (m : MPMetric) : MeanOut :=
  match drainLoop m.toMetric m.worker_results with
  | (base, rem, evs, some e) =>
    { state := { m with toMetric := base, worker_results := rem }
      events := evs, raised := some e, result := none }
  | (base, _, evs, none) =>
    { state := { m with toMetric := base, worker_results := [] }
      events := evs ++ [.poolClose m.pool, .poolJoin m.pool, .aggregate]
      raised := none
      result := some base.mean }

/-- One input of the evaluation loop for a single metric: the clean,
enhanced and optional noisy signal plus the file name. -/
structure AddInput where
  clean : Sig
  enh : Sig
  noisy : Option Sig
  fn : Option String
deriving DecidableEq, Repr

/-- Sequential driver: feed a list of file pair inputs to MPMetric add
in list order, stopping at the first re-raised exception, as the
evaluation loop does. -/
def runAdds (rs : ℕ × ℕ → Sig → Sig) (compute : Sig → Sig → Except String MetricValue)
    (m : MPMetric) : List AddInput → MPMetric × Option String
  | [] => (m, none)
  | i :: rest =>
    let out := MPMetric.add rs compute m i.clean i.enh i.noisy i.fn
    match out.raised with
    | some e => (out.state, some e)
    | none => runAdds rs compute out.state rest

/-- Values stored in the attribute dict of an MPMetric instance. -/
inductive FieldVal where
  | vname (n : MetricName)
  | vsr (s : Option ℕ)
  | vresampler (r : Option (ℕ × ℕ))
  | vvalues (v : ValueDict)
  | vpool (p : ℕ)
  | vpending (w : List Pending)
deriving DecidableEq, Repr

/-- The attribute dict of an MPMetric instance, in attribute assignment
order: the base init assigns name, sr, resampler, enh_values and
noisy_values, then the MPMetric init assigns pool and worker_results. -/
def MPMetric.dictOf (m : MPMetric) : List (String × FieldVal) :=
  [("name", .vname m.name), ("sr", .vsr m.sr), ("resampler", .vresampler m.resampler),
   ("enh_values", .vvalues m.enh_values), ("noisy_values", .vvalues m.noisy_values),
   ("pool", .vpool m.pool), ("worker_results", .vpending m.worker_results)]

/-- MPMetric getstate: copy the attribute dict and del the pool and
worker_results entries; the rest is the transmitted state. -/
def MPMetric.getstate (m : MPMetric) : List (String × FieldVal) :=
  delKey "worker_results" (delKey "pool" m.dictOf)

/-- MPMetric setstate: dict update of the attribute dict with the
received state. -/
def MPMetric.setstate (d state : List (String × FieldVal)) : List (String × FieldVal) :=
  state.foldl (fun acc p => dictSet p.1 p.2 acc) d

/-- The generator log_progress collapsed to its observable behaviour:
the elements yielded, the progress percentages logged, and the
exception terminating the generator, if any. -/
structure ProgressOut (α : Type) where
  yielded : List α
  logs : List ℕ
  error : Option String
deriving DecidableEq, Repr

/-- The iteration of log_progress: yield the element, skip the logging
block when logging is disabled, otherwise compute the integer progress
percentage and take it modulo the cadence, which raises
ZeroDivisionError when the cadence is zero. -/
def progressLoop {α : Type} (freq : ℤ) (disable : Bool) (L : ℕ) :
    List α → ℕ → List ℕ → ProgressOut α
  | [], _, _ => ⟨[], [], none⟩
  | i :: rest, k, logged =>
    if disable then
      let out := progressLoop freq disable L rest (k + 1) logged
      ⟨i :: out.yielded, out.logs, out.error⟩
    else
      let progress : ℕ := 100 * (k + 1) / L
      if freq = 0 then ⟨[i], [], some "ZeroDivisionError"⟩
      else if (progress : ℤ) % freq = 0 ∧ 0 < progress ∧ progress ∉ logged then
        let out := progressLoop freq disable L rest (k + 1) (logged ++ [progress])
        ⟨i :: out.yielded, progress :: out.logs, out.error⟩
      else
        let out := progressLoop freq disable L rest (k + 1) logged
        ⟨i :: out.yielded, out.logs, out.error⟩

/-- log_progress: logging is disabled when the cadence is negative or
at least 100; L is the length of the iterable. -/
def log_progress {α : Type} (l : List α) (freq : ℤ) : ProgressOut α :=
  progressLoop freq (freq < 0 ∨ 100 ≤ freq : Bool) l.length l 0 []

/-- The cell loop of one csv row: str(m[n]) for n in metric_names,
raising KeyError when a metric name is missing from the dict of one
file. -/
def csvCells (m : List (String × ℚ)) : List String → Except String (List String)
  | [] => .ok []
  | n :: ns =>
    match List.lookup n m with
    | none => .error ("KeyError: " ++ n)
    | some v =>
      match csvCells m ns with
      | .error e => .error e
      | .ok cells => .ok (toString v :: cells)

/-- The row loop of write_csv: one row per file in dict iteration
order, each row the filename followed by the cells. -/
def writeRows (names : List String) : List (String × List (String × ℚ)) →
    Except String (List (List String))
  | [] => .ok []
  | (fn, m) :: rest =>
    match csvCells m names with
    | .error e => .error e
    | .ok cells =>
      match writeRows names rest with
      | .error e => .error e
      | .ok rows => .ok ((fn :: cells) :: rows)

/-- write_csv: take the metric names from the first entry of the
flattend dict (next on an empty dict raises StopIteration before the
file is opened), then write the header row and one row per file. The
returned list is the sequence of rows written. -/
def write_csv (flattend : List (String × List (String × ℚ))) :
    Except String (List (List String)) :=
  match flattend with
  | [] => .error "StopIteration"
  | (_, m₀) :: _ =>
    let metric_names := m₀.map Prod.fst
    match writeRows metric_names flattend with
    | .error e => .error e
    | .ok rows => .ok (("filename" :: metric_names) :: rows)

/-- Errors escaping mos_api_req: the UnboundLocalError raised when the
final raise statement references the variable e after the except
clause deleted it, or the intended ValueError carrying a message. -/
inductive MosErr where
  | unboundLocal
  | valueError (msg : String)
deriving DecidableEq, Repr

/-- The retry loop of mos_api_req. The argument attempt gives the
outcome of the request issued on each attempt index; remaining is the
number of loop iterations 20 - tries still allowed; e is the local
variable e, which the except clause rebinds and then deletes, so it is
none whenever at least one attempt has failed. After the loop the raise
statement reads e: deleted means UnboundLocalError. -/
def mosLoop (attempt : ℕ → Except String (List (String × ℚ))) :
    ℕ → ℕ → Option String → Except MosErr (List (String × ℚ))
  | 0, _, e =>
    match e with
    | some msg => .error (.valueError msg)
    | none => .error .unboundLocal
  | remaining + 1, tries, _ =>
    match attempt tries with
    | .ok d => .ok d
    | .error _ => mosLoop attempt remaining (tries + 1) none

/-- mos_api_req: up to 20 attempts with no backoff, e initialised to
the empty string before the loop. -/
def mos_api_req (attempt : ℕ → Except String (List (String × ℚ))) :
    Except MosErr (List (String × ℚ)) :=
  mosLoop attempt 20 0 (some "")

/-- Dot product of the column vectors in si_sdr_speechmetrics. -/
def dotQ (a b : List ℚ) : ℚ :=
  (List.zipWith (fun x y => x * y) a b).sum

/-- The machine epsilon of float64, np.finfo eps, as an exact rational. -/
def epsF64 : ℚ := 1 / 2 ^ 52

/-- si_sdr_speechmetrics computed in exact arithmetic, split into the
numerator eps + Sss and the denominator eps + Snn of the log argument;
the returned value of the source is 10 * log10 of their quotient. -/
def si_sdr_frac (reference estimate : List ℚ) : ℚ × ℚ :=
  let eps := epsF64
  let rss := dotQ reference reference
  let a := (eps + dotQ reference estimate) / (rss + eps)
  let e_true := reference.map (fun x => a * x)
  let e_res := List.zipWith (fun x y => x - y) estimate e_true
  let sss := (e_true.map (fun x => x ^ 2)).sum
  let snn := (e_res.map (fun x => x ^ 2)).sum
  (eps + sss, eps + snn)

section Helpers

/-- Looking up the key just set returns the new value. -/
theorem lookup_dictSet_self {β : Type} (k : String) (v : β) (d : List (String × β)) :
    List.lookup k (dictSet k v d) = some v := by
  induction d with
  | nil => simp [dictSet, List.lookup]
  | cons p rest ih =>
    obtain ⟨k₂, v₂⟩ := p
    by_cases h : k = k₂
    · subst h; simp [dictSet, List.lookup]
    · have hb : (k == k₂) = false := beq_eq_false_iff_ne.mpr h
      simp [dictSet, h, List.lookup, hb, ih]

/-- Setting one key leaves lookups of other keys unchanged. -/
theorem lookup_dictSet_ne {β : Type} {k k₂ : String} (v : β) (d : List (String × β))
    (h : k₂ ≠ k) : List.lookup k₂ (dictSet k v d) = List.lookup k₂ d := by
  have hb : (k₂ == k) = false := beq_eq_false_iff_ne.mpr h
  induction d with
  | nil => simp [dictSet, List.lookup, hb]
  | cons p rest ih =>
    obtain ⟨k₃, v₃⟩ := p
    by_cases hk : k = k₃
    · subst hk; simp [dictSet, List.lookup, hb]
    · simp [dictSet, hk, List.lookup, ih]

/-- Appending a fixed prefix to a string is injective. -/
theorem string_append_inj {p n n₂ : String} (h : p ++ n = p ++ n₂) : n = n₂ := by
  have hd := congrArg String.data h
  rw [String.data_append, String.data_append] at hd
  exact String.ext (List.append_cancel_left hd)

/-- The Noisy label and the Enhanced label never coincide. -/
theorem noisy_label_ne_enh (n n₂ : String) : "Noisy    " ++ n ≠ "Enhanced " ++ n₂ := by
  intro h
  have hd := congrArg String.data h
  rw [String.data_append, String.data_append] at hd
  have h₁ : ("Noisy    " : String).data = 'N' :: "oisy    ".data := rfl
  have h₂ : ("Enhanced " : String).data = 'E' :: "nhanced ".data := rfl
  rw [h₁, h₂, List.cons_append, List.cons_append] at hd
  exact absurd (List.head_eq_of_cons_eq hd) (by decide)

/-- A key present in the first components of a pair list has a
successful lookup. -/
theorem lookup_isSome_of_mem_keys {β : Type} {n : String} {d : List (String × β)}
    (h : n ∈ d.map Prod.fst) : ∃ v, List.lookup n d = some v := by
  induction d with
  | nil => simp at h
  | cons p rest ih =>
    obtain ⟨k, v⟩ := p
    by_cases hk : n = k
    · exact ⟨v, by simp [List.lookup, hk]⟩
    · have hb : (n == k) = false := beq_eq_false_iff_ne.mpr hk
      have h₂ : n ∈ rest.map Prod.fst := by
        rcases List.mem_cons.mp h with h₁ | h₂
        · exact absurd h₁ hk
        · exact h₂
      obtain ⟨w, hw⟩ := ih h₂
      exact ⟨w, by simp [List.lookup, hb, hw]⟩

/-- Closed form of the zip append loop: the first entries up to the
length of the value vector get one appended record each, the remaining
entries are returned unchanged, so a length mismatch is silently
truncated in both directions. -/
theorem appendZip_eq (fn : Option String) (d : ValueDict) (vs : List ℚ) :
    appendZip fn d vs =
      (d.zip vs).map (fun p => (p.1.1, p.1.2 ++ [(fn, p.2)])) ++ d.drop vs.length := by
  induction d generalizing vs with
  | nil => cases vs <;> simp [appendZip]
  | cons p rest ih =>
    obtain ⟨k, l⟩ := p
    cases vs with
    | nil => simp [appendZip]
    | cons v vtl => simp [appendZip, ih]

/-- The zip append loop does not change the key sequence. -/
theorem appendZip_map_fst (fn : Option String) (d : ValueDict) (vs : List ℚ) :
    (appendZip fn d vs).map Prod.fst = d.map Prod.fst := by
  induction d generalizing vs with
  | nil => cases vs <;> simp [appendZip]
  | cons p rest ih =>
    obtain ⟨k, l⟩ := p
    cases vs with
    | nil => simp [appendZip]
    | cons v vtl => simp [appendZip, ih]

end Helpers

section Claims

/-- Claim C2 (code bug): flattend on a Metric holding at least one
recorded result raises KeyError instead of returning the pivoted per
file mapping, because both flat dicts are plain dicts indexed with the
filename key before the key is ever inserted. The docstring of flattend
and its caller evaluation_loop expect a returned mapping. Evaluated
here on a Metric with one enhanced record and on one that also has a
noisy record; only a Metric with no records at all returns normally. -/
theorem C2_flattend_keyerror :
    ((Metric.init (.single "SISDR") none none).add_values_enh
        (.scalar 1) (some "a.wav")).flattend false = .error "KeyError: a.wav" ∧
    (((Metric.init (.single "SISDR") none none).add_values_enh
        (.scalar 1) (some "a.wav")).add_values_noisy
        (.scalar 2) (some "a.wav")).flattend true = .error "KeyError: a.wav" ∧
    (Metric.init (.single "SISDR") none none).flattend false = .ok [] := by
  refine ⟨by decide, by decide, by decide⟩

/-- Claim C3 (code bug): the remote request loop makes 20 attempts with
no backoff and returns the first success, but when every attempt fails
the final raise statement evaluates the variable e after the except
clause has deleted it, so the call raises UnboundLocalError instead of
the intended ValueError carrying the last error message. Succeeding on
the twentieth attempt (index 19) still returns the score; attempt index
20 is never issued. -/
theorem C3_mos_api_req_retry :
    mos_api_req (fun _ => .error "connection error") = .error .unboundLocal ∧
    (∀ msg, mos_api_req (fun _ => .error "connection error") ≠ .error (.valueError msg)) ∧
    mos_api_req (fun i => if i = 19 then .ok [("mos", 3)] else .error "connection error") =
      .ok [("mos", 3)] ∧
    mos_api_req (fun i => if i = 20 then .ok [("mos", 3)] else .error "connection error") =
      .error .unboundLocal := by
  refine ⟨by decide, ?_, by decide, by decide⟩
  intro msg h
  have h₂ : mos_api_req (fun _ => .error "connection error") = .error .unboundLocal := by decide
  rw [h₂] at h
  simp at h

/-- Claim C7 counterexample: with logging cadence 0 the disable guard
log_freq_percent less than 0 or at least 100 does not fire, and the
progress check divides modulo 0: the generator yields the first element
and then raises ZeroDivisionError, so not every element of the iterable
is yielded. -/
theorem C7_cex_cadence_zero :
    log_progress [1, 2] (0 : ℤ) = ⟨[1], [], some "ZeroDivisionError"⟩ ∧
    (log_progress [1, 2] (0 : ℤ)).yielded ≠ [1, 2] ∧
    (log_progress [1, 2] (0 : ℤ)).error ≠ none := by
  refine ⟨by decide, by decide, by decide⟩

/-- Claim C8: getstate copies the attribute dict and deletes exactly
the pool and worker_results entries, so the transmitted state holds the
name, sample rate, resampler and both value dicts unchanged, and no
pool or pending handle entry, although both are present in the full
attribute dict. -/
theorem C8_getstate_excludes_pool (m : MPMetric) :
    m.getstate =
      [("name", .vname m.name), ("sr", .vsr m.sr), ("resampler", .vresampler m.resampler),
       ("enh_values", .vvalues m.enh_values), ("noisy_values", .vvalues m.noisy_values)] ∧
    List.lookup "pool" m.getstate = none ∧
    List.lookup "worker_results" m.getstate = none ∧
    List.lookup "pool" m.dictOf = some (.vpool m.pool) ∧
    List.lookup "worker_results" m.dictOf = some (.vpending m.worker_results) := by
  refine ⟨rfl, rfl, rfl, rfl, rfl⟩

/-- Claim C9: on identical signals of four unit samples the exact
arithmetic of si_sdr_speechmetrics gives scaling factor one, zero
residual, denominator eps + 0 strictly positive (so the quotient is
defined, not a 0 over 0 NaN), log argument 2 pow 54 + 1, and the
returned value 10 times log10 of that exceeds 150: a very large finite
value bounded by the epsilon stabilised denominator. -/
theorem C9_si_sdr_identical :
    (si_sdr_frac [1, 1, 1, 1] [1, 1, 1, 1]).2 = epsF64 ∧
    0 < (si_sdr_frac [1, 1, 1, 1] [1, 1, 1, 1]).2 ∧
    (si_sdr_frac [1, 1, 1, 1] [1, 1, 1, 1]).1 / (si_sdr_frac [1, 1, 1, 1] [1, 1, 1, 1]).2 =
      2 ^ 54 + 1 ∧
    150 < 10 * Real.logb 10
        (((si_sdr_frac [1, 1, 1, 1] [1, 1, 1, 1]).1 : ℝ) /
          ((si_sdr_frac [1, 1, 1, 1] [1, 1, 1, 1]).2 : ℝ)) := by
  have h₁ : (si_sdr_frac [1, 1, 1, 1] [1, 1, 1, 1]).1 = 4 + 1 / 2 ^ 52 := by
    norm_num [si_sdr_frac, dotQ, epsF64, List.zipWith, List.sum]
  have h₂ : (si_sdr_frac [1, 1, 1, 1] [1, 1, 1, 1]).2 = 1 / 2 ^ 52 := by
    norm_num [si_sdr_frac, dotQ, epsF64, List.zipWith, List.sum]
  refine ⟨by rw [h₂]; norm_num [epsF64], by rw [h₂]; norm_num, by rw [h₁, h₂]; norm_num, ?_⟩
  have hq : (((si_sdr_frac [1, 1, 1, 1] [1, 1, 1, 1]).1 : ℝ) /
      ((si_sdr_frac [1, 1, 1, 1] [1, 1, 1, 1]).2 : ℝ)) = 2 ^ 54 + 1 := by
    rw [h₁, h₂]; push_cast; norm_num
  rw [hq]
  have hlog : (15 : ℝ) < Real.logb 10 (2 ^ 54 + 1) := by
    rw [Real.lt_logb_iff_rpow_lt (by norm_num) (by positivity)]
    have hr : (10 : ℝ) ^ (15 : ℝ) = (10 : ℝ) ^ (15 : ℕ) := by
      rw [← Real.rpow_natCast 10 15]; norm_num
    rw [hr]; norm_num
  linarith

/-- Claim C5 counterexample: a vector whose length differs from the
declared name count is not rejected: with two declared names and a one
element vector, add_values_enh returns normally and records a
truncated result (one record under the first name, none under the
second); with one declared name and a three element vector it likewise
records only the first value. No fatal error occurs. -/
theorem C5_cex_mismatch_truncates :
    (Metric.init (.multi ["PESQ", "CSIG"]) none none).add_values_enh (.vector [1]) none =
      { name := .multi ["PESQ", "CSIG"], sr := none, resampler := none,
        enh_values := [("PESQ", [(none, 1)]), ("CSIG", [])],
        noisy_values := [("PESQ", []), ("CSIG", [])] } ∧
    (Metric.init (.single "A") none none).add_values_enh (.vector [1, 2, 3]) none =
      { name := .single "A", sr := none, resampler := none,
        enh_values := [("A", [(none, 1)])], noisy_values := [("A", [])] } := by
  refine ⟨by decide, by decide⟩

/-- Claim C5 amended: a scalar result is recorded as a single element
vector (for a Metric declaring exactly one name it lands under that
name), but a vector length mismatch is not a fatal error: the zip in
add_values silently truncates, pairing names with values positionally
up to the shorter length and dropping the excess of either side, for
the enhanced and the noisy dict alike. -/
theorem C5_scalar_and_truncation :
    (∀ (m : Metric) (n : String) (l : List ResultRec) (v : ℚ) (fn : Option String),
      m.enh_values = [(n, l)] →
      (m.add_values_enh (.scalar v) fn).enh_values = [(n, l ++ [(fn, v)])]) ∧
    (∀ (m : Metric) (vs : List ℚ) (fn : Option String),
      (m.add_values_enh (.vector vs) fn).enh_values =
        (m.enh_values.zip vs).map (fun p => (p.1.1, p.1.2 ++ [(fn, p.2)])) ++
          m.enh_values.drop vs.length ∧
      (m.add_values_noisy (.vector vs) fn).noisy_values =
        (m.noisy_values.zip vs).map (fun p => (p.1.1, p.1.2 ++ [(fn, p.2)])) ++
          m.noisy_values.drop vs.length) := by
  constructor
  · intro m n l v fn h
    simp [Metric.add_values_enh, MetricValue.asVector, h, appendZip]
  · intro m vs fn
    exact ⟨appendZip_eq fn m.enh_values vs, appendZip_eq fn m.noisy_values vs⟩

/-- Witness for the amended claim C5 at a concrete input. -/
theorem C5_scalar_and_truncation_witness :
    ((Metric.init (.single "SISDR") none none).add_values_enh
        (.scalar 7) (some "a.wav")).enh_values = [("SISDR", [(some "a.wav", 7)])] :=
  C5_scalar_and_truncation.1 (Metric.init (.single "SISDR") none none)
    "SISDR" [] 7 (some "a.wav") (by decide)

/-- The loop of log_progress yields everything and never logs nor
raises when logging is disabled. -/
theorem progressLoop_disabled {α : Type} (freq : ℤ) (L : ℕ) (l : List α) (k : ℕ)
    (logged : List ℕ) : progressLoop freq true L l k logged = ⟨l, [], none⟩ := by
  induction l generalizing k with
  | nil => simp [progressLoop]
  | cons i rest ih => simp [progressLoop, ih]

/-- Claim C7 amended: a cadence below 0 or at least 100 disables
progress logging and the generator yields every element of the
iterable without logging or raising; the cadence 0 is not covered by
the disable guard and instead raises ZeroDivisionError after the first
element of a nonempty iterable is yielded. -/
theorem C7_log_progress_disabled {α : Type} (l : List α) (freq : ℤ)
    (h : freq < 0 ∨ 100 ≤ freq) :
    log_progress l freq = ⟨l, [], none⟩ := by
  have hd : (decide (freq < 0 ∨ 100 ≤ freq)) = true := decide_eq_true h
  rw [log_progress]
  rw [hd]
  exact progressLoop_disabled freq l.length l 0 []

/-- Witness for the amended claim C7 at a concrete input. -/
theorem C7_log_progress_disabled_witness :
    ((-3 : ℤ) < 0 ∨ 100 ≤ (-3 : ℤ)) ∧ log_progress [1, 2, 3] (-3 : ℤ) = ⟨[1, 2, 3], [], none⟩ :=
  ⟨by decide, C7_log_progress_disabled [1, 2, 3] (-3) (by decide)⟩

/-- Draining a deque whose first failed handle follows only successful
ones stops at that handle: its error is logged and re-raised, and the
handles after it stay queued. -/
theorem drainLoop_error (pre : List Pending) (bad : Pending) (post : List Pending)
    (e : String) (base : Metric)
    (hok : ∀ p ∈ pre, ∃ v, p.result = .ok v) (hbad : bad.result = .error e) :
    ∃ m₂ evs, drainLoop base (pre ++ bad :: post) = (m₂, post, evs, some e) ∧
      Ev.logError e ∈ evs := by
  induction pre generalizing base with
  | nil =>
    refine ⟨base, [.logError e], ?_, by simp⟩
    simp [drainLoop, hbad]
  | cons h t ih =>
    obtain ⟨v, hv⟩ := hok h (by simp)
    obtain ⟨m₂, evs, heq, hmem⟩ :=
      ih (base.add_values_noisy v h.fn) (fun p hp => hok p (by simp [hp]))
    refine ⟨m₂, .appendNoisy h.fn :: .getNoisy h.fn :: evs, ?_, by simp [hmem]⟩
    simp [drainLoop, hv, heq]

/-- Claim C1 counterexample: a failing asynchronous computation does
not let the run continue. For the enhanced signal, add logs the error
through the error callback but the blocking get re-raises it, so add
itself raises with the Result Record omitted; for the noisy baseline, a
failed queued handle makes mean re-raise while draining, so no
aggregate over a reduced sample count is ever returned. -/
theorem C1_cex_failure_raises :
    (MPMetric.add (fun _ x => x) (fun _ _ => .error "boom")
        (MPMetric.init (.single "SISDR") 0 none none) [1] [1] (some [1]) (some "a.wav")).raised =
      some "boom" ∧
    (MPMetric.add (fun _ x => x) (fun _ _ => .error "boom")
        (MPMetric.init (.single "SISDR") 0 none none) [1] [1] (some [1]) (some "a.wav")).events =
      [.submitEnh (some "a.wav"), .logError "boom"] ∧
    (MPMetric.add (fun _ x => x) (fun _ _ => .error "boom")
        (MPMetric.init (.single "SISDR") 0 none none) [1] [1] (some [1])
        (some "a.wav")).state.enh_values = [("SISDR", [])] ∧
    (MPMetric.mean
        { MPMetric.init (.single "SISDR") 0 none none with
            worker_results := [⟨some "a.wav", .error "boom"⟩] }).raised = some "boom" ∧
    (MPMetric.mean
        { MPMetric.init (.single "SISDR") 0 none none with
            worker_results := [⟨some "a.wav", .error "boom"⟩] }).result = none := by
  refine ⟨by decide, by decide, by decide, by decide, by decide⟩

/-- Claim C1 amended: an exception in a pooled asynchronous computation
is logged by the error callback and the Result Record is omitted, but
the exception still escapes through the blocking get calls: add
re-raises it for the enhanced computation, leaving the state untouched,
and mean re-raises it while draining a failed baseline handle and then
returns no aggregate, so the evaluation run aborts instead of
continuing with a reduced sample count. -/
theorem C1_failure_logged_and_reraised :
    (∀ (rs : ℕ × ℕ → Sig → Sig) (compute : Sig → Sig → Except String MetricValue)
        (m : MPMetric) (clean enh : Sig) (noisy : Option Sig) (fn : Option String) (e : String),
      compute (maybe_resample rs m.toMetric clean) (maybe_resample rs m.toMetric enh) =
          .error e →
      MPMetric.add rs compute m clean enh noisy fn =
        ⟨m, [.submitEnh fn, .logError e], some e⟩) ∧
    (∀ (m : MPMetric) (pre : List Pending) (bad : Pending) (post : List Pending) (e : String),
      m.worker_results = pre ++ bad :: post →
      (∀ p ∈ pre, ∃ v, p.result = .ok v) →
      bad.result = .error e →
      (MPMetric.mean m).raised = some e ∧ (MPMetric.mean m).result = none ∧
        Ev.logError e ∈ (MPMetric.mean m).events) := by
  constructor
  · intro rs compute m clean enh noisy fn e h
    simp [MPMetric.add, h]
  · intro m pre bad post e hw hok hbad
    obtain ⟨m₂, evs, heq, hmem⟩ := drainLoop_error pre bad post e m.toMetric hok hbad
    rw [MPMetric.mean, hw, heq]
    exact ⟨rfl, rfl, hmem⟩

/-- Witness for the amended claim C1 at concrete inputs. -/
theorem C1_failure_logged_and_reraised_witness :
    MPMetric.add (fun _ x => x) (fun _ _ => .error "oops")
        (MPMetric.init (.single "STOI") 3 none none) [2] [2] none none =
      ⟨MPMetric.init (.single "STOI") 3 none none,
        [.submitEnh none, .logError "oops"], some "oops"⟩ ∧
    (MPMetric.mean
        { MPMetric.init (.single "STOI") 3 none none with
            worker_results := [⟨none, .ok (.scalar 1)⟩, ⟨none, .error "oops"⟩] }).raised =
      some "oops" :=
  ⟨C1_failure_logged_and_reraised.1 (fun _ x => x) (fun _ _ => .error "oops")
      (MPMetric.init (.single "STOI") 3 none none) [2] [2] none none "oops" (by decide),
    (C1_failure_logged_and_reraised.2
      { MPMetric.init (.single "STOI") 3 none none with
          worker_results := [⟨none, .ok (.scalar 1)⟩, ⟨none, .error "oops"⟩] }
      [⟨none, .ok (.scalar 1)⟩] ⟨none, .error "oops"⟩ [] "oops" (by decide)
      (by intro p hp; simp at hp; exact ⟨.scalar 1, by rw [hp]⟩) (by decide)).1⟩

/-- Draining a deque of successful handles appends each baseline
record, blocks on each handle in submission order, empties the deque
and raises nothing; the enhanced records and the remaining fields are
untouched. -/
theorem drainLoop_ok (l : List Pending) (base : Metric)
    (hok : ∀ p ∈ l, ∃ v, p.result = .ok v) :
    ∃ base₂, drainLoop base l =
        (base₂, [], l.flatMap (fun h => [.appendNoisy h.fn, .getNoisy h.fn]), none) ∧
      base₂.enh_values = base.enh_values ∧ base₂.resampler = base.resampler ∧
      base₂.name = base.name ∧ base₂.sr = base.sr := by
  induction l generalizing base with
  | nil => exact ⟨base, by simp [drainLoop], rfl, rfl, rfl, rfl⟩
  | cons h t ih =>
    obtain ⟨v, hv⟩ := hok h (by simp)
    obtain ⟨base₂, heq, he, hr, hn, hs⟩ :=
      ih (base.add_values_noisy v h.fn) (fun p hp => hok p (by simp [hp]))
    refine ⟨base₂, ?_, by simp [he, Metric.add_values_noisy], by simp [hr, Metric.add_values_noisy],
      by simp [hn, Metric.add_values_noisy], by simp [hs, Metric.add_values_noisy]⟩
    simp [drainLoop, hv, heq]

/-- Sequential adds with a total scalar formula on a single name Metric
with no resampler: nothing is raised, the enhanced Result Records are
appended in file iteration order with their filenames, the resampler
and pool are untouched, and every queued baseline handle carries a
successful outcome whenever the initial deque did. -/
theorem runAdds_scalar (rs : ℕ × ℕ → Sig → Sig) (f : Sig → Sig → ℚ)
    (inputs : List AddInput) (m : MPMetric) (n : String) (l : List ResultRec)
    (hres : m.resampler = none) (henh : m.enh_values = [(n, l)])
    (hw : ∀ p ∈ m.worker_results, ∃ v, p.result = .ok v) :
    (runAdds rs (fun a b => .ok (.scalar (f a b))) m inputs).2 = none ∧
    (runAdds rs (fun a b => .ok (.scalar (f a b))) m inputs).1.enh_values =
      [(n, l ++ inputs.map (fun i => (i.fn, f i.clean i.enh)))] ∧
    (runAdds rs (fun a b => .ok (.scalar (f a b))) m inputs).1.resampler = none ∧
    (runAdds rs (fun a b => .ok (.scalar (f a b))) m inputs).1.pool = m.pool ∧
    (∀ p ∈ (runAdds rs (fun a b => .ok (.scalar (f a b))) m inputs).1.worker_results,
      ∃ v, p.result = .ok v) := by
  induction inputs generalizing m l with
  | nil => exact ⟨rfl, by simp [runAdds, henh], by simp [runAdds, hres], rfl, hw⟩
  | cons i rest ih =>
    have hre : maybe_resample rs m.toMetric = fun x => x := by
      funext x; simp [maybe_resample, hres]
    cases hni : i.noisy with
    | none =>
      have hstep : MPMetric.add rs (fun a b => .ok (.scalar (f a b))) m i.clean i.enh
          i.noisy i.fn =
          ⟨{ m with toMetric := m.toMetric.add_values_enh (.scalar (f i.clean i.enh)) i.fn },
            [.submitEnh i.fn, .appendEnh i.fn, .getEnh i.fn], none⟩ := by
        simp [MPMetric.add, hre, hni]
      have henh₂ : ({ m with
          toMetric := m.toMetric.add_values_enh (.scalar (f i.clean i.enh)) i.fn } :
            MPMetric).enh_values = [(n, l ++ [(i.fn, f i.clean i.enh)])] := by
        simp [Metric.add_values_enh, henh, MetricValue.asVector, appendZip]
      have := ih { m with
          toMetric := m.toMetric.add_values_enh (.scalar (f i.clean i.enh)) i.fn }
        (l ++ [(i.fn, f i.clean i.enh)])
        (by simp [Metric.add_values_enh, hres]) henh₂ hw
      simpa [runAdds, hstep] using this
    | some ny =>
      have hstep : MPMetric.add rs (fun a b => .ok (.scalar (f a b))) m i.clean i.enh
          i.noisy i.fn =
          ⟨{ m with
               toMetric := m.toMetric.add_values_enh (.scalar (f i.clean i.enh)) i.fn,
               worker_results := m.worker_results ++ [⟨i.fn, .ok (.scalar (f i.clean ny))⟩] },
            [.submitEnh i.fn, .appendEnh i.fn, .getEnh i.fn, .submitNoisy i.fn], none⟩ := by
        simp [MPMetric.add, hre, hni, Metric.add_values_enh, maybe_resample, hres]
      have henh₂ : ({ m with
            toMetric := m.toMetric.add_values_enh (.scalar (f i.clean i.enh)) i.fn,
            worker_results := m.worker_results ++ [⟨i.fn, .ok (.scalar (f i.clean ny))⟩] } :
            MPMetric).enh_values = [(n, l ++ [(i.fn, f i.clean i.enh)])] := by
        simp [Metric.add_values_enh, henh, MetricValue.asVector, appendZip]
      have := ih { m with
            toMetric := m.toMetric.add_values_enh (.scalar (f i.clean i.enh)) i.fn,
            worker_results := m.worker_results ++ [⟨i.fn, .ok (.scalar (f i.clean ny))⟩] }
        (l ++ [(i.fn, f i.clean i.enh)])
        (by simp [Metric.add_values_enh, hres]) henh₂
        (by
          intro p hp
          rcases List.mem_append.mp hp with h₁ | h₂
          · exact hw p h₁
          · simp at h₂
            exact ⟨.scalar (f i.clean ny), by rw [h₂]⟩)
      simpa [runAdds, hstep] using this

/-- Claim C4: pooled add blocks on the enhanced handle with get before
returning, by which time the callback has appended the enhanced record,
while the baseline handle is only queued and never blocked on inside
add (one getEnh and no getNoisy in the trace); the NoisyMetric variant
behaves the same; mean drains every queued handle in submission order,
then closes and joins the pool, and the aggregate event and result come
only after the drain, over the emptied deque; and a sequence of adds
records the enhanced Result Records in file iteration order. -/
theorem C4_blocking_and_drain_order :
    (∀ (rs : ℕ × ℕ → Sig → Sig) (compute : Sig → Sig → Except String MetricValue)
        (m : MPMetric) (clean enh ny : Sig) (fn : Option String) (v : MetricValue),
      compute (maybe_resample rs m.toMetric clean) (maybe_resample rs m.toMetric enh) = .ok v →
      MPMetric.add rs compute m clean enh (some ny) fn =
        ⟨{ m with
             toMetric := m.toMetric.add_values_enh v fn,
             worker_results := m.worker_results ++
               [⟨fn, compute (maybe_resample rs m.toMetric clean)
                   (maybe_resample rs m.toMetric ny)⟩] },
          [.submitEnh fn, .appendEnh fn, .getEnh fn, .submitNoisy fn], none⟩) ∧
    (∀ (rs : ℕ × ℕ → Sig → Sig) (compute : Sig → Except String MetricValue)
        (m : MPMetric) (enh ny : Sig) (fn : Option String) (v : MetricValue),
      compute (maybe_resample rs m.toMetric enh) = .ok v →
      NoisyMetric.add rs compute m enh (some ny) fn =
        ⟨{ m with
             toMetric := m.toMetric.add_values_enh v fn,
             worker_results := m.worker_results ++
               [⟨fn, compute (maybe_resample rs m.toMetric ny)⟩] },
          [.submitEnh fn, .appendEnh fn, .getEnh fn, .submitNoisy fn], none⟩) ∧
    (∀ m : MPMetric, (∀ p ∈ m.worker_results, ∃ v, p.result = .ok v) →
      (MPMetric.mean m).raised = none ∧
      (MPMetric.mean m).events =
        m.worker_results.flatMap (fun h => [.appendNoisy h.fn, .getNoisy h.fn]) ++
          [.poolClose m.pool, .poolJoin m.pool, .aggregate] ∧
      (MPMetric.mean m).state.worker_results = [] ∧
      (MPMetric.mean m).result = some ((MPMetric.mean m).state.toMetric.mean) ∧
      (MPMetric.mean m).state.enh_values = m.enh_values) ∧
    (∀ (rs : ℕ × ℕ → Sig → Sig) (f : Sig → Sig → ℚ) (name : String) (pool : ℕ)
        (inputs : List AddInput),
      (runAdds rs (fun a b => .ok (.scalar (f a b)))
          (MPMetric.init (.single name) pool none none) inputs).2 = none ∧
      (runAdds rs (fun a b => .ok (.scalar (f a b)))
          (MPMetric.init (.single name) pool none none) inputs).1.enh_values =
        [(name, inputs.map (fun i => (i.fn, f i.clean i.enh)))]) := by
  refine ⟨?_, ?_, ?_, ?_⟩
  · intro rs compute m clean enh ny fn v h
    simp [maybe_resample] at h
    simp [MPMetric.add, h, Metric.add_values_enh, maybe_resample]
  · intro rs compute m enh ny fn v h
    simp [maybe_resample] at h
    simp [NoisyMetric.add, h, Metric.add_values_enh, maybe_resample]
  · intro m hok
    obtain ⟨base₂, heq, he, _, _, _⟩ := drainLoop_ok m.worker_results m.toMetric hok
    rw [MPMetric.mean, heq]
    exact ⟨rfl, rfl, rfl, rfl, he⟩
  · intro rs f name pool inputs
    have h := runAdds_scalar rs f inputs (MPMetric.init (.single name) pool none none)
      name [] rfl rfl (by intro p hp; simp [MPMetric.init, Metric.init] at hp)
    exact ⟨h.1, by simpa using h.2.1⟩

/-- Witness for claim C4 at concrete inputs. -/
theorem C4_blocking_and_drain_order_witness :
    MPMetric.add (fun _ x => x) (fun _ b => .ok (.scalar (b.headD 0)))
        (MPMetric.init (.single "SISDR") 0 none none) [1] [2] (some [3]) (some "a.wav") =
      ⟨{ MPMetric.init (.single "SISDR") 0 none none with
           toMetric := (MPMetric.init (.single "SISDR") 0 none none).toMetric.add_values_enh
             (.scalar 2) (some "a.wav"),
           worker_results := [⟨some "a.wav", .ok (.scalar 3)⟩] },
        [.submitEnh (some "a.wav"), .appendEnh (some "a.wav"), .getEnh (some "a.wav"),
          .submitNoisy (some "a.wav")], none⟩ ∧
    (runAdds (fun _ x => x) (fun _ b => .ok (.scalar (b.headD 0)))
        (MPMetric.init (.single "SISDR") 0 none none)
        [⟨[1], [2], some [3], some "a.wav"⟩, ⟨[4], [5], none, some "b.wav"⟩]).1.enh_values =
      [("SISDR", [(some "a.wav", 2), (some "b.wav", 5)])] := by
  constructor
  · have h := C4_blocking_and_drain_order.1 (fun _ x => x)
      (fun _ b => .ok (.scalar (b.headD 0)))
      (MPMetric.init (.single "SISDR") 0 none none) [1] [2] [3] (some "a.wav")
      (.scalar 2) (by decide)
    simpa using h
  · have h := (C4_blocking_and_drain_order.2.2.2 (fun _ x => x)
      (fun _ b => b.headD 0) "SISDR" 0
      [⟨[1], [2], some [3], some "a.wav"⟩, ⟨[4], [5], none, some "b.wav"⟩]).2
    simpa using h

/-- The mean loop only writes keys labelled Enhanced or Noisy for the
names it visits; any other key keeps its binding in the accumulator. -/
theorem meanLoop_untouched (nd : ValueDict) (d : ValueDict) (out : List (String × Option ℚ))
    (k : String) (hk : ∀ n ∈ d.map Prod.fst, k ≠ "Enhanced " ++ n ∧ k ≠ "Noisy    " ++ n) :
    List.lookup k (meanLoop nd d out) = List.lookup k out := by
  induction d generalizing out with
  | nil => simp [meanLoop]
  | cons p rest ih =>
    obtain ⟨n, l⟩ := p
    obtain ⟨hke, hkn⟩ := hk n (by simp)
    have hrest : ∀ n₂ ∈ rest.map Prod.fst, k ≠ "Enhanced " ++ n₂ ∧ k ≠ "Noisy    " ++ n₂ :=
      fun n₂ hn₂ => hk n₂ (by simp [hn₂])
    rw [meanLoop, ih _ hrest, lookup_dictSet_ne _ _ hke]
    cases hnd : List.lookup n nd with
    | none => rfl
    | some nl =>
      by_cases hlen : 0 < nl.length
      · simp [hlen, lookup_dictSet_ne _ _ hkn]
      · simp [hlen]

/-- In the mean loop output the Enhanced label of a visited name maps
to the mean of its enhanced records, provided the names are unique. -/
theorem meanLoop_enh_lookup (nd : ValueDict) (d : ValueDict) (out : List (String × Option ℚ))
    (n₀ : String) (l₀ : List ResultRec) (hnd : (d.map Prod.fst).Nodup)
    (hmem : (n₀, l₀) ∈ d) :
    List.lookup ("Enhanced " ++ n₀) (meanLoop nd d out) = some (npMean (l₀.map Prod.snd)) := by
  induction d generalizing out with
  | nil => simp at hmem
  | cons p rest ih =>
    obtain ⟨n, l⟩ := p
    have hnd₂ : (n :: rest.map Prod.fst).Nodup := hnd
    have hhead : n ∉ rest.map Prod.fst := (List.nodup_cons.mp hnd₂).1
    have htail : (rest.map Prod.fst).Nodup := (List.nodup_cons.mp hnd₂).2
    rcases List.mem_cons.mp hmem with h₁ | h₂
    · injection h₁ with hn hl
      subst hn; subst hl
      have huntouched : ∀ n₂ ∈ rest.map Prod.fst,
          "Enhanced " ++ n₀ ≠ "Enhanced " ++ n₂ ∧ "Enhanced " ++ n₀ ≠ "Noisy    " ++ n₂ := by
        intro n₂ hn₂
        constructor
        · intro h
          exact hhead (string_append_inj h ▸ hn₂)
        · intro h
          exact noisy_label_ne_enh n₂ n₀ h.symm
      rw [meanLoop, meanLoop_untouched nd rest _ _ huntouched, lookup_dictSet_self]
    · rw [meanLoop, ih _ htail h₂]

/-- In the mean loop output the Noisy label of a visited name maps to
the mean of its noisy records when there are any; otherwise the label
keeps its binding in the accumulator. -/
theorem meanLoop_noisy_lookup (nd : ValueDict) (d : ValueDict) (out : List (String × Option ℚ))
    (n₀ : String) (l₀ : List ResultRec) (hnd : (d.map Prod.fst).Nodup)
    (hmem : (n₀, l₀) ∈ d) :
    List.lookup ("Noisy    " ++ n₀) (meanLoop nd d out) =
      (match List.lookup n₀ nd with
       | some nl =>
         if 0 < nl.length then some (npMean (nl.map Prod.snd))
         else List.lookup ("Noisy    " ++ n₀) out
       | none => List.lookup ("Noisy    " ++ n₀) out) := by
  induction d generalizing out with
  | nil => simp at hmem
  | cons p rest ih =>
    obtain ⟨n, l⟩ := p
    have hnd₂ : (n :: rest.map Prod.fst).Nodup := hnd
    have hhead : n ∉ rest.map Prod.fst := (List.nodup_cons.mp hnd₂).1
    have htail : (rest.map Prod.fst).Nodup := (List.nodup_cons.mp hnd₂).2
    rcases List.mem_cons.mp hmem with h₁ | h₂
    · injection h₁ with hn hl
      subst hn; subst hl
      have huntouched : ∀ n₂ ∈ rest.map Prod.fst,
          "Noisy    " ++ n₀ ≠ "Enhanced " ++ n₂ ∧ "Noisy    " ++ n₀ ≠ "Noisy    " ++ n₂ := by
        intro n₂ hn₂
        constructor
        · exact noisy_label_ne_enh n₀ n₂
        · intro h
          exact hhead (string_append_inj h ▸ hn₂)
      rw [meanLoop, meanLoop_untouched nd rest _ _ huntouched,
        lookup_dictSet_ne _ _ (noisy_label_ne_enh n₀ n₀)]
      cases hlk : List.lookup n₀ nd with
      | none => rfl
      | some nl =>
        by_cases hlen : 0 < nl.length
        · simp [hlen, lookup_dictSet_self]
        · simp [hlen]
    · have hn₀ : n₀ ∈ rest.map Prod.fst := List.mem_map.mpr ⟨(n₀, l₀), h₂, rfl⟩
      have hne : n₀ ≠ n := by
        intro h
        exact hhead (h ▸ hn₀)
      rw [meanLoop, ih _ htail h₂]
      have h₁ : List.lookup ("Noisy    " ++ n₀)
          (dictSet ("Enhanced " ++ n)
            (npMean (l.map Prod.snd))
            (match List.lookup n nd with
             | some nl => if 0 < nl.length
                 then dictSet ("Noisy    " ++ n) (npMean (nl.map Prod.snd)) out else out
             | none => out)) = List.lookup ("Noisy    " ++ n₀) out := by
        rw [lookup_dictSet_ne _ _ (noisy_label_ne_enh n₀ n)]
        cases hlk : List.lookup n nd with
        | none => rfl
        | some nl =>
          by_cases hlen : 0 < nl.length
          · simp only [hlen, if_true]
            exact lookup_dictSet_ne _ _ (fun h => hne (string_append_inj h))
          · simp [hlen]
      cases hlk : List.lookup n₀ nd with
      | none => simpa [hlk] using h₁
      | some nl =>
        by_cases hlen : 0 < nl.length
        · simp [hlen]
        · simpa [hlen] using h₁

/-- Claim C6: mean maps the Enhanced label of every declared name to
the arithmetic mean of the enhanced records under that name, and emits
the Noisy label exactly when at least one noisy baseline record exists
for the name; and an evaluation of N file pairs through pooled add
without error leaves exactly N enhanced records, whose mean (the sum
divided by N) is what the Enhanced label reports after the deque is
drained. The source labels carry the literal strings Enhanced plus
space and Noisy plus padding. -/
theorem C6_mean_labels_and_count :
    (∀ m : Metric, (m.enh_values.map Prod.fst).Nodup →
      ∀ (n : String) (l : List ResultRec), (n, l) ∈ m.enh_values →
        List.lookup ("Enhanced " ++ n) m.mean = some (npMean (l.map Prod.snd)) ∧
        ((List.lookup ("Noisy    " ++ n) m.mean).isSome ↔
          ∃ nl, List.lookup n m.noisy_values = some nl ∧ nl ≠ [])) ∧
    (∀ (rs : ℕ × ℕ → Sig → Sig) (f : Sig → Sig → ℚ) (name : String) (pool : ℕ)
        (inputs : List AddInput), inputs ≠ [] →
      (runAdds rs (fun a b => .ok (.scalar (f a b)))
          (MPMetric.init (.single name) pool none none) inputs).1.enh_values =
        [(name, inputs.map (fun i => (i.fn, f i.clean i.enh)))] ∧
      ∃ out, (MPMetric.mean (runAdds rs (fun a b => .ok (.scalar (f a b)))
          (MPMetric.init (.single name) pool none none) inputs).1).result = some out ∧
        List.lookup ("Enhanced " ++ name) out =
          some (some ((inputs.map (fun i => f i.clean i.enh)).sum / (inputs.length : ℚ)))) := by
  constructor
  · intro m hnd n l hmem
    constructor
    · exact meanLoop_enh_lookup m.noisy_values m.enh_values [] n l hnd hmem
    · rw [Metric.mean, meanLoop_noisy_lookup m.noisy_values m.enh_values [] n l hnd hmem]
      cases hlk : List.lookup n m.noisy_values with
      | none => simp
      | some nl =>
        by_cases hlen : 0 < nl.length
        · simp only [hlen, if_true, Option.isSome_some, true_iff]
          exact ⟨nl, rfl, by simpa using List.length_pos.mp hlen⟩
        · have hnil : nl = [] := by
            cases nl with
            | nil => rfl
            | cons a t => exact absurd (by simp) hlen
          subst hnil
          simp [hlen]
  · intro rs f name pool inputs hne
    have h := runAdds_scalar rs f inputs (MPMetric.init (.single name) pool none none)
      name [] rfl rfl (by intro p hp; simp [MPMetric.init, Metric.init] at hp)
    obtain ⟨hraised, henh, hres, hpool, hok⟩ := h
    refine ⟨henh, ?_⟩
    obtain ⟨base₂, heq, he, _, _, _⟩ := drainLoop_ok
      (runAdds rs (fun a b => .ok (.scalar (f a b)))
        (MPMetric.init (.single name) pool none none) inputs).1.worker_results
      (runAdds rs (fun a b => .ok (.scalar (f a b)))
        (MPMetric.init (.single name) pool none none) inputs).1.toMetric hok
    refine ⟨base₂.mean, ?_, ?_⟩
    · rw [MPMetric.mean, heq]
    · have hkeys : (base₂.enh_values.map Prod.fst).Nodup := by
        rw [he, henh]; simp
      have hmem : (name, inputs.map (fun i => (i.fn, f i.clean i.enh))) ∈ base₂.enh_values := by
        rw [he, henh]; simp
      have hlook := meanLoop_enh_lookup base₂.noisy_values base₂.enh_values [] name
        (inputs.map (fun i => (i.fn, f i.clean i.enh))) hkeys hmem
      rw [Metric.mean] at *
      rw [hlook]
      have hmap : ((inputs.map (fun i => (i.fn, f i.clean i.enh))).map Prod.snd) =
          inputs.map (fun i => f i.clean i.enh) := by
        simp
      rw [hmap]
      have hlen : (inputs.map (fun i => f i.clean i.enh)).length = inputs.length := by simp
      have hempty : (inputs.map (fun i => f i.clean i.enh)).isEmpty = false := by
        cases inputs with
        | nil => exact absurd rfl hne
        | cons a t => simp
      rw [npMean, hempty, hlen]
      simp

/-- Witness for claim C6 at concrete inputs. -/
theorem C6_mean_labels_and_count_witness :
    (List.lookup ("Enhanced " ++ "S")
        (((Metric.init (.single "S") none none).add_values_enh (.scalar 1) (some "a")).mean) =
      some (npMean ([((some "a" : Option String), (1 : ℚ))].map Prod.snd))) ∧
    (∃ out, (MPMetric.mean (runAdds (fun _ x => x) (fun _ b => .ok (.scalar (b.headD 0)))
        (MPMetric.init (.single "SISDR") 1 none none)
        [⟨[1], [2], some [3], some "a.wav"⟩, ⟨[4], [6], some [5], some "b.wav"⟩]).1).result =
          some out ∧
      List.lookup ("Enhanced " ++ "SISDR") out = some (some 4)) := by
  constructor
  · exact (C6_mean_labels_and_count.1
      ((Metric.init (.single "S") none none).add_values_enh (.scalar 1) (some "a"))
      (by decide) "S" [((some "a" : Option String), (1 : ℚ))] (by decide)).1
  · obtain ⟨-, out, hout, hlook⟩ := C6_mean_labels_and_count.2 (fun _ x => x)
      (fun _ b => b.headD 0) "SISDR" 1
      [⟨[1], [2], some [3], some "a.wav"⟩, ⟨[4], [6], some [5], some "b.wav"⟩] (by decide)
    refine ⟨out, hout, ?_⟩
    rw [hlook]
    norm_num

/-- When every metric name is present, the cell loop returns the
stringified values in name order. -/
theorem csvCells_ok_of_covers (m : List (String × ℚ)) (names : List String)
    (h : ∀ n ∈ names, ∃ v, List.lookup n m = some v) :
    csvCells m names = .ok (names.map fun n => toString ((List.lookup n m).getD 0)) := by
  induction names with
  | nil => simp [csvCells]
  | cons n ns ih =>
    obtain ⟨v, hv⟩ := h n (by simp)
    rw [csvCells, hv, ih (fun n₂ hn₂ => h n₂ (by simp [hn₂]))]
    simp [hv]

/-- Every error of the cell loop is a KeyError naming a missing metric
name from the header list. -/
theorem csvCells_error_shape (m : List (String × ℚ)) (names : List String) (e : String)
    (h : csvCells m names = .error e) : ∃ n ∈ names, e = "KeyError: " ++ n := by
  induction names with
  | nil => simp [csvCells] at h
  | cons n ns ih =>
    rw [csvCells] at h
    cases hlk : List.lookup n m with
    | none =>
      rw [hlk] at h
      exact ⟨n, by simp, by injection h with h₂; exact h₂.symm⟩
    | some v =>
      rw [hlk] at h
      cases hrec : csvCells m ns with
      | error e₂ =>
        rw [hrec] at h
        obtain ⟨n₂, hn₂, he₂⟩ := ih (by injection h with h₂; exact h₂ ▸ hrec)
        exact ⟨n₂, by simp [hn₂], he₂⟩
      | ok cells => rw [hrec] at h; simp at h

/-- A successful cell loop means every metric name was present. -/
theorem csvCells_ok_covers (m : List (String × ℚ)) (names : List String)
    (cells : List String) (h : csvCells m names = .ok cells) :
    ∀ n ∈ names, ∃ v, List.lookup n m = some v := by
  induction names generalizing cells with
  | nil => simp
  | cons n ns ih =>
    rw [csvCells] at h
    cases hlk : List.lookup n m with
    | none => rw [hlk] at h; simp at h
    | some v =>
      rw [hlk] at h
      cases hrec : csvCells m ns with
      | error e => rw [hrec] at h; simp at h
      | ok cells₂ =>
        intro n₂ hn₂
        rcases List.mem_cons.mp hn₂ with h₁ | h₂
        · exact ⟨v, h₁ ▸ hlk⟩
        · exact ih cells₂ hrec n₂ h₂

/-- When every file covers all metric names of the header, the row loop
writes one row per file in iteration order. -/
theorem writeRows_ok (names : List String) (l : List (String × List (String × ℚ)))
    (h : ∀ p ∈ l, ∀ n ∈ names, ∃ v, List.lookup n p.2 = some v) :
    writeRows names l =
      .ok (l.map fun p => p.1 :: (names.map fun n => toString ((List.lookup n p.2).getD 0))) := by
  induction l with
  | nil => simp [writeRows]
  | cons p rest ih =>
    obtain ⟨fn, mp⟩ := p
    rw [writeRows, csvCells_ok_of_covers mp names (fun n hn => h (fn, mp) (by simp) n hn),
      ih (fun p₂ hp₂ n hn => h p₂ (by simp [hp₂]) n hn)]
    rfl

/-- When some file lacks one of the header metric names, the row loop
fails with a KeyError naming a header metric name. -/
theorem writeRows_error (names : List String) (l : List (String × List (String × ℚ)))
    (h : ∃ p ∈ l, ∃ n ∈ names, List.lookup n p.2 = none) :
    ∃ n ∈ names, writeRows names l = .error ("KeyError: " ++ n) := by
  induction l with
  | nil => simp at h
  | cons p rest ih =>
    obtain ⟨fn, mp⟩ := p
    cases hcell : csvCells mp names with
    | error e =>
      obtain ⟨n, hn, he⟩ := csvCells_error_shape mp names e hcell
      refine ⟨n, hn, ?_⟩
      rw [writeRows, hcell, he]
    | ok cells =>
      obtain ⟨pbad, hpbad, n, hn, hnone⟩ := h
      have hbad_rest : ∃ p ∈ rest, ∃ n ∈ names, List.lookup n p.2 = none := by
        rcases List.mem_cons.mp hpbad with h₁ | h₂
        · obtain ⟨v, hv⟩ := csvCells_ok_covers mp names cells hcell n hn
          rw [h₁] at hnone
          rw [hnone] at hv
          simp at hv
        · exact ⟨pbad, h₂, n, hn, hnone⟩
      obtain ⟨n₂, hn₂, herr⟩ := ih hbad_rest
      refine ⟨n₂, hn₂, ?_⟩
      rw [writeRows, hcell, herr]

/-- Claim C10: write_csv raises StopIteration on an empty mapping
before any row is produced; on a nonempty mapping whose entries all
cover the metric names of the first entry it writes the header row and
one row per file in iteration order, with columns in the order of the
first entry; and when some file lacks one of those names it fails with
a KeyError rather than producing the rows. -/
theorem C10_write_csv_contract :
    write_csv [] = .error "StopIteration" ∧
    (∀ (fn₀ : String) (m₀ : List (String × ℚ)) (rest : List (String × List (String × ℚ))),
      (∀ p ∈ rest, ∀ n ∈ m₀.map Prod.fst, ∃ v, List.lookup n p.2 = some v) →
      write_csv ((fn₀, m₀) :: rest) =
        .ok (("filename" :: m₀.map Prod.fst) ::
          ((fn₀, m₀) :: rest).map (fun p =>
            p.1 :: ((m₀.map Prod.fst).map fun n => toString ((List.lookup n p.2).getD 0))))) ∧
    (∀ (fn₀ : String) (m₀ : List (String × ℚ)) (rest : List (String × List (String × ℚ))),
      (∃ p ∈ (fn₀, m₀) :: rest, ∃ n ∈ m₀.map Prod.fst, List.lookup n p.2 = none) →
      ∃ n ∈ m₀.map Prod.fst,
        write_csv ((fn₀, m₀) :: rest) = .error ("KeyError: " ++ n)) := by
  refine ⟨rfl, ?_, ?_⟩
  · intro fn₀ m₀ rest hcov
    have hall : ∀ p ∈ (fn₀, m₀) :: rest, ∀ n ∈ m₀.map Prod.fst,
        ∃ v, List.lookup n p.2 = some v := by
      intro p hp n hn
      rcases List.mem_cons.mp hp with h₁ | h₂
      · exact h₁ ▸ lookup_isSome_of_mem_keys hn
      · exact hcov p h₂ n hn
    rw [write_csv, writeRows_ok (m₀.map Prod.fst) ((fn₀, m₀) :: rest) hall]
  · intro fn₀ m₀ rest hbad
    obtain ⟨n, hn, herr⟩ := writeRows_error (m₀.map Prod.fst) ((fn₀, m₀) :: rest) hbad
    refine ⟨n, hn, ?_⟩
    rw [write_csv, herr]

/-- Witness for claim C10 at concrete inputs. -/
theorem C10_write_csv_contract_witness :
    write_csv [("a.wav", [("PESQ", 2), ("STOI", 1)]), ("b.wav", [("PESQ", 3), ("STOI", 4)])] =
      .ok [["filename", "PESQ", "STOI"], ["a.wav", "2", "1"], ["b.wav", "3", "4"]] ∧
    (∃ n ∈ (["PESQ", "STOI"] : List String),
      write_csv [("a.wav", [("PESQ", 2), ("STOI", 1)]), ("b.wav", [("PESQ", 3)])] =
        .error ("KeyError: " ++ n)) := by
  constructor
  · have h := C10_write_csv_contract.2.1 "a.wav" [("PESQ", 2), ("STOI", 1)]
      [("b.wav", [("PESQ", 3), ("STOI", 4)])]
      (by
        intro p hp n hn
        simp only [List.mem_singleton] at hp
        subst hp
        simp at hn
        rcases hn with h₁ | h₂
        · exact ⟨3, by rw [h₁]; rfl⟩
        · exact ⟨4, by rw [h₂]; rfl⟩)
    rw [h]
    rfl
  · have h := C10_write_csv_contract.2.2 "a.wav" [("PESQ", 2), ("STOI", 1)]
      [("b.wav", [("PESQ", 3)])]
      ⟨("b.wav", [("PESQ", 3)]), by simp, "STOI", by simp, rfl⟩
    simpa using h

end Claims

end DFEval
